import Mathlib

/-!
Shallow embedding of the nested-loop index enumerator `getIndex` from
`src/gc3apps/bf.uzh.ch/test/pymods/support/getIndexPy2.py`.

The Python class keeps a vector `base` of per-dimension extents, a mutable
index vector `loopIndex` (initially all zeros), an `iteration` counter
(initially 1) and a restriction token `restr` (lower-cased at construction
when it is a non-empty string, kept as-is otherwise).  `next()` advances the
odometer (except on the very first call), raises `StopIteration` when the
freshly advanced index has wrapped to all zeros, and otherwise either yields
a copy of the index or — when the restriction predicate says "skip" —
recursively calls itself; an unrecognized restriction token makes it print a
message and `sys.exit()`.

We model the state as a structure over `List Nat` / `Option String`, and the
recursive `next`-driven iteration as a fuel-indexed loop `runAux` in which one
fuel unit corresponds to one activation of `next` (one candidate index
considered).

The source stores `loopIndex` in a NumPy `int16` vector
(`zeros(len(self.base), dtype=int16)`), whose in-place `+= 1` wraps `32767`
to `-32768`.  Two index models are therefore developed side by side:
an idealized model over unbounded naturals (`increment`, `runAux`, `run`),
and the `int16`-faithful model (`wrap16`, `increment16`, `runAux16`,
`run16`) whose digits are integers reduced into `[-32768, 32767]`.
`runAux16_eq_runAux` proves the two coincide whenever every extent is at
most `32768` (so the largest index, `extent - 1`, fits `int16`); for a
larger extent they diverge, and the width-dependent claims are settled
against the `int16` model (see `run16_forty`: extents `[40000]` emit
`65536` tuples, including negative ones).
-/

namespace GetIndexPy2

/-- Python `str.lower` on a single character, for the ASCII range: the source
only lowercases restriction tokens, which are ASCII. -/
def charLower (c : Char) : Char :=
  if 65 ≤ c.toNat ∧ c.toNat ≤ 90 then Char.ofNat (c.toNat + 32) else c

/-- Python `str.lower` on a string (ASCII model): lowercase every character. -/
def strLower (s : String) : String :=
  ⟨s.data.map charLower⟩

/-- `getIndex.__init__`'s handling of `restr`: `None` stays `None`; a truthy
(non-empty) string is lower-cased; the falsy empty string is stored as-is.
(The `numpy.ndarray` branch, which lowercases the first element, is outside
this model: no claim constructs the enumerator from an array token.) -/
def normRestr : Option String → Option String
  | none => none
  | some s => if s = "" then some "" else some (strLower s)

/-- The state of a `getIndex` object: extents vector `base`, restriction
token `restr` (as stored by `__init__`), current index vector `loopIndex`,
and the `iteration` counter. -/
structure getIndex where
  base : List Nat
  restr : Option String
  loopIndex : List Nat
  iteration : Nat
deriving DecidableEq

/-- `getIndex.__init__` for a list argument: store the extents, the
normalized restriction, the all-zero index vector and counter 1.  The body
performs no validation of `base` or `restr` whatsoever. -/
def mkGetIndex (base : List Nat) (restr : Option String) : getIndex :=
  { base := base
    restr := normRestr restr
    loopIndex := List.replicate base.length 0
    iteration := 1 }

/-- `getIndex.__iter__`: returns `getIndex(self.base, self.restr)` — a fresh
object built from the stored extents and restriction. -/
def iter (s : getIndex) : getIndex :=
  mkGetIndex s.base s.restr

/-- `getIndex.increment`'s loop, on base/index lists reversed into
little-endian order (the Python loop walks `ix` from the last axis down to
axis 0): if the current digit is at `base-1` it is zeroed and the carry moves
on, otherwise the digit is incremented and the loop returns.  The Nat-side
test `i + 1 = b` is `i == b - 1` for positive `b`, and both reject every
`i ≥ 0` when `b = 0` (Python compares against `-1` there). -/
def incLE : List Nat → List Nat → List Nat
  | b :: bs, i :: is => if i + 1 = b then 0 :: incLE bs is else (i + 1) :: is
  | _, _ => []

/-- `getIndex.increment`: odometer advance, rightmost axis fastest. -/
def increment (base idx : List Nat) : List Nat :=
  (incLE base.reverse idx.reverse).reverse

/-- `getIndex.lowerTr`: scans adjacent pairs from the first axis; returns
`False` as soon as `loopIndex[ix] < loopIndex[ix+1]`, else `True`.  The
result is the *skip* flag. -/
def lowerTr : List Nat → Bool
  | a :: b :: rest => if a < b then false else lowerTr (b :: rest)
  | _ => true

/-- `getIndex.diagnol` (sic): scans adjacent pairs; returns `True` as soon as
two neighbours differ, else `False`.  The result is the *skip* flag. -/
def diagnol : List Nat → Bool
  | a :: b :: rest => if a ≠ b then true else diagnol (b :: rest)
  | _ => false

/-- The restriction dispatch in `getIndex.next`: `'lowertr'` and `'diagnol'`
run their scans, `None` and `'none'` never skip, and any other stored value
falls into the `print` + `sys.exit()` branch, modelled as `none`. -/
def skipOf : Option String → List Nat → Option Bool
  | some s, idx =>
    if s = "lowertr" then some (lowerTr idx)
    else if s = "diagnol" then some (diagnol idx)
    else if s = "none" then some false
    else none
  | none, _ => some false

/-- How a full iteration of the enumerator ends: `stopped` is
`StopIteration` (the odometer wrapped to all zeros), `exited` is the
`sys.exit()` on an unrecognized restriction, `fuelOut` means the modelling
fuel ran out before either. -/
inductive Outcome where
  | stopped
  | exited
  | fuelOut
deriving DecidableEq

/-- The iteration loop: collects everything `next()` yields until it raises
`StopIteration` or exits.  One fuel unit is one activation of `next`
(Python's recursive skip call re-enters `next`, so a skipped candidate also
consumes one unit).  Each activation mirrors `next`'s body: increment unless
this is the first call (`iteration > 1` guard), raise `StopIteration` if the
advanced index is all zeros and `iteration > 1`, bump the counter, dispatch
the restriction, then either recurse (skip), exit, or yield a copy of the
index and continue. -/
def runAux (base : List Nat) (restr : Option String) :
    Nat → List Nat → Nat → List (List Nat) × Outcome
  | 0, _, _ => ([], Outcome.fuelOut)
  | fuel + 1, idx, it =>
    let idx' := if 1 < it then increment base idx else idx
    if 1 < it ∧ idx' = List.replicate base.length 0 then ([], Outcome.stopped)
    else
      match skipOf restr idx' with
      | none => ([], Outcome.exited)
      | some true => runAux base restr fuel idx' (it + 1)
      | some false =>
        let r := runAux base restr fuel idx' (it + 1)
        (idx' :: r.1, r.2)

/-- Run the iteration from an arbitrary state. -/
def runState (fuel : Nat) (s : getIndex) : List (List Nat) × Outcome :=
  runAux s.base s.restr fuel s.loopIndex s.iteration

/-- Construct the enumerator and run it from the start (Python's
`list(getIndex(base, restr))`, also recording how iteration ended). -/
def run (base : List Nat) (restr : Option String) (fuel : Nat) :
    List (List Nat) × Outcome :=
  runState fuel (mkGetIndex base restr)

/-! Canonical mixed-radix counting, used to state what "odometer order" means.
`digitsLE bs k` is the little-endian digit vector of `k` in the mixed radix
`bs`; `valLE` is its left inverse.  `digitsBE` transports this to the
big-endian (source) axis order. -/

/-- Little-endian mixed-radix digits of `k` for the radix vector `bs`. -/
def digitsLE : List Nat → Nat → List Nat
  | [], _ => []
  | b :: bs, k => (k % b) :: digitsLE bs (k / b)

/-- Value of a little-endian digit vector in the mixed radix `bs`. -/
def valLE : List Nat → List Nat → Nat
  | b :: bs, d :: ds => d + b * valLE bs ds
  | _, _ => 0

/-- Big-endian mixed-radix digits: position `k` of the odometer whose extents
are `base`, most significant axis first. -/
def digitsBE (base : List Nat) (k : Nat) : List Nat :=
  (digitsLE base.reverse k).reverse

/-- Value of a big-endian index vector for the extents `base`. -/
def valBE (base idx : List Nat) : Nat :=
  valLE base.reverse idx.reverse

/-! ### The `int16`-faithful index model.

The source's `loopIndex` has dtype `int16`; its components are signed
16-bit values, and the in-place `+= 1` wraps.  Comparisons against
`base[ix] - 1` and against `0` promote the `int16` value to a wide integer,
so they compare the *represented* value. -/

/-- Reduce an integer into the `int16` range `[-32768, 32767]`
(two's-complement wrap-around, NumPy's overflow behaviour for `+= 1`). -/
def wrap16 (z : Int) : Int :=
  (z + 32768) % 65536 - 32768

/-- `getIndex.increment`'s loop on little-endian lists, `int16` digits:
the comparison `loopIndex[ix] == base[ix] - 1` compares promoted values,
and the `+= 1` wraps in `int16`. -/
def incLE16 : List Nat → List Int → List Int
  | b :: bs, i :: is =>
    if i = (b : Int) - 1 then 0 :: incLE16 bs is else wrap16 (i + 1) :: is
  | _, _ => []

/-- `getIndex.increment` with the `int16` index vector. -/
def increment16 (base : List Nat) (idx : List Int) : List Int :=
  (incLE16 base.reverse idx.reverse).reverse

/-- `getIndex.lowerTr` on the `int16` index vector (value comparisons). -/
def lowerTr16 : List Int → Bool
  | a :: b :: rest => if a < b then false else lowerTr16 (b :: rest)
  | _ => true

/-- `getIndex.diagnol` on the `int16` index vector (value comparisons). -/
def diagnol16 : List Int → Bool
  | a :: b :: rest => if a ≠ b then true else diagnol16 (b :: rest)
  | _ => false

/-- The restriction dispatch of `getIndex.next` on the `int16` index. -/
def skipOf16 : Option String → List Int → Option Bool
  | some s, idx =>
    if s = "lowertr" then some (lowerTr16 idx)
    else if s = "diagnol" then some (diagnol16 idx)
    else if s = "none" then some false
    else none
  | none, _ => some false

/-- The iteration loop over the `int16` index vector; same shape as
`runAux`, with the `int16` odometer advance and value comparisons. -/
def runAux16 (base : List Nat) (restr : Option String) :
    Nat → List Int → Nat → List (List Int) × Outcome
  | 0, _, _ => ([], Outcome.fuelOut)
  | fuel + 1, idx, it =>
    let idx' := if 1 < it then increment16 base idx else idx
    if 1 < it ∧ idx' = List.replicate base.length (0 : Int) then
      ([], Outcome.stopped)
    else
      match skipOf16 restr idx' with
      | none => ([], Outcome.exited)
      | some true => runAux16 base restr fuel idx' (it + 1)
      | some false =>
        let r := runAux16 base restr fuel idx' (it + 1)
        (idx' :: r.1, r.2)

/-- The `getIndex` state with the `int16` index vector. -/
structure getIndex16 where
  base : List Nat
  restr : Option String
  loopIndex : List Int
  iteration : Nat
deriving DecidableEq

/-- `getIndex.__init__` (int16 index model): `zeros(len(base), dtype=int16)`
is the all-zero integer vector. -/
def mkGetIndex16 (base : List Nat) (restr : Option String) : getIndex16 :=
  { base := base
    restr := normRestr restr
    loopIndex := List.replicate base.length (0 : Int)
    iteration := 1 }

/-- Run the `int16` iteration from an arbitrary state. -/
def runState16 (fuel : Nat) (s : getIndex16) : List (List Int) × Outcome :=
  runAux16 s.base s.restr fuel s.loopIndex s.iteration

/-- Construct and run with the `int16` index vector (the faithful model of
`list(getIndex(base, restr))`). -/
def run16 (base : List Nat) (restr : Option String) (fuel : Nat) :
    List (List Int) × Outcome :=
  runState16 fuel (mkGetIndex16 base restr)

/-! ### Lowercasing is idempotent (restart semantics of `__iter__`). -/

theorem toNat_ofNat_valid {n : Nat} (h : n.isValidChar) :
    (Char.ofNat n).toNat = n := by
  rw [Char.ofNat, dif_pos h]
  rfl

theorem charLower_charLower (c : Char) : charLower (charLower c) = charLower c := by
  by_cases h : 65 ≤ c.toNat ∧ c.toNat ≤ 90
  · have hv : (c.toNat + 32).isValidChar := Or.inl (by omega)
    have h1 : charLower c = Char.ofNat (c.toNat + 32) := by
      rw [charLower, if_pos h]
    rw [h1, charLower, toNat_ofNat_valid hv, if_neg (by omega)]
  · have h1 : charLower c = c := by
      rw [charLower, if_neg h]
    rw [h1, charLower, if_neg h]

theorem strLower_strLower (s : String) : strLower (strLower s) = strLower s := by
  unfold strLower
  simp [List.map_map, Function.comp_def, charLower_charLower]

theorem strLower_ne_empty (s : String) (hs : s ≠ "") : strLower s ≠ "" := by
  intro h
  apply hs
  cases s with
  | mk data =>
    have : data.map charLower = [] := congrArg String.data h
    have : data = [] := by simpa using this
    simp [this]

theorem normRestr_idem (r : Option String) : normRestr (normRestr r) = normRestr r := by
  cases r with
  | none => rfl
  | some s =>
    by_cases h : s = ""
    · simp [normRestr, h]
    · simp only [normRestr, if_neg h, if_neg (strLower_ne_empty s h), strLower_strLower]

/-! ### Mixed-radix counting lemmas. -/

theorem length_digitsLE (bs : List Nat) (k : Nat) :
    (digitsLE bs k).length = bs.length := by
  induction bs generalizing k with
  | nil => rfl
  | cons b bs ih => simp [digitsLE, ih]

theorem digitsLE_zero (bs : List Nat) :
    digitsLE bs 0 = List.replicate bs.length 0 := by
  induction bs with
  | nil => rfl
  | cons b bs ih => simp [digitsLE, List.replicate, ih]

theorem forall₂_digitsLE (bs : List Nat) (hpos : ∀ b ∈ bs, 0 < b) (k : Nat) :
    List.Forall₂ (· < ·) (digitsLE bs k) bs := by
  induction bs generalizing k with
  | nil => exact List.Forall₂.nil
  | cons b bs ih =>
    exact List.Forall₂.cons (Nat.mod_lt _ (hpos b (by simp)))
      (ih (fun x hx => hpos x (by simp [hx])) _)

theorem valLE_digitsLE (bs : List Nat) (hpos : ∀ b ∈ bs, 0 < b) (k : Nat)
    (hk : k < bs.prod) : valLE bs (digitsLE bs k) = k := by
  induction bs generalizing k with
  | nil =>
    simp only [List.prod_nil] at hk
    interval_cases k
    rfl
  | cons b bs ih =>
    have hb : 0 < b := hpos b (by simp)
    have hk' : k / b < bs.prod := by
      rw [Nat.div_lt_iff_lt_mul hb]
      calc k < (b :: bs).prod := hk
        _ = bs.prod * b := by rw [List.prod_cons]; ring
    have := ih (fun x hx => hpos x (by simp [hx])) (k / b) hk'
    simp only [digitsLE, valLE, this]
    exact Nat.mod_add_div k b

theorem digitsLE_valLE (bs : List Nat) (hpos : ∀ b ∈ bs, 0 < b) :
    ∀ t, List.Forall₂ (· < ·) t bs →
      digitsLE bs (valLE bs t) = t ∧ valLE bs t < bs.prod := by
  induction bs with
  | nil =>
    intro t ht
    cases ht
    exact ⟨rfl, by simp [valLE]⟩
  | cons b bs ih =>
    intro t ht
    cases ht with
    | cons hd hds =>
      rename_i d ds
      have hb : 0 < b := hpos b (by simp)
      obtain ⟨ihd, ihlt⟩ := ih (fun x hx => hpos x (by simp [hx])) ds hds
      set v := valLE bs ds with hv
      have hmod : (d + b * v) % b = d := by
        rw [Nat.add_mul_mod_self_left, Nat.mod_eq_of_lt hd]
      have hdiv : (d + b * v) / b = v := by
        rw [Nat.add_mul_div_left _ _ hb, Nat.div_eq_of_lt hd, Nat.zero_add]
      constructor
      · simp only [valLE, digitsLE, hmod, hdiv, ihd, ← hv]
      · have h1 : d + b * v < b * (v + 1) := by
          have : b * (v + 1) = b * v + b := by ring
          omega
        have h2 : b * (v + 1) ≤ b * bs.prod := Nat.mul_le_mul_left b ihlt
        calc d + b * v < b * (v + 1) := h1
          _ ≤ b * bs.prod := h2
          _ = (b :: bs).prod := (List.prod_cons).symm

theorem incLE_digitsLE (bs : List Nat) (hpos : ∀ b ∈ bs, 0 < b) (k : Nat)
    (hk : k < bs.prod) :
    incLE bs (digitsLE bs k) = digitsLE bs ((k + 1) % bs.prod) := by
  induction bs generalizing k with
  | nil =>
    simp only [List.prod_nil] at hk
    interval_cases k
    rfl
  | cons b bs ih =>
    have hb : 0 < b := hpos b (by simp)
    have hkb : k < b * bs.prod := by simpa [List.prod_cons] using hk
    have hdm := Nat.mod_add_div k b
    by_cases h : k % b + 1 = b
    · have hke : k + 1 = b * (k / b + 1) := by
        have : b * (k / b + 1) = b * (k / b) + b := by ring
        omega
      have hdivlt : k / b < bs.prod := by
        rw [Nat.div_lt_iff_lt_mul hb]
        calc k < b * bs.prod := hkb
          _ = bs.prod * b := by ring
      have ihx := ih (fun x hx => hpos x (by simp [hx])) (k / b) hdivlt
      simp only [digitsLE, incLE, if_pos h, ihx, List.prod_cons, hke,
        Nat.mul_mod_mul_left, Nat.mul_mod_right, Nat.mul_div_cancel_left _ hb]
    · have hmb : k % b < b := Nat.mod_lt _ hb
      have hlt : k + 1 < b * bs.prod := by
        rcases Nat.lt_or_ge (k + 1) (b * bs.prod) with h' | h'
        · exact h'
        · exfalso
          have he : k + 1 = b * bs.prod := by omega
          have : (k + 1) % b = 0 := by
            rw [he, Nat.mul_mod_right]
          have he2 : k + 1 = (k % b + 1) + b * (k / b) := by omega
          rw [he2, Nat.add_mul_mod_self_left, Nat.mod_eq_of_lt (by omega)] at this
          omega
      have he2 : k + 1 = (k % b + 1) + b * (k / b) := by omega
      have hmod : (k + 1) % b = k % b + 1 := by
        rw [he2, Nat.add_mul_mod_self_left, Nat.mod_eq_of_lt (by omega)]
      have hdiv : (k + 1) / b = k / b := by
        rw [he2, Nat.add_mul_div_left _ _ hb, Nat.div_eq_of_lt (by omega), Nat.zero_add]
      have hmodP : (k + 1) % (b :: bs).prod = k + 1 := by
        rw [List.prod_cons]
        exact Nat.mod_eq_of_lt hlt
      simp only [digitsLE, incLE, if_neg h, hmodP, hmod, hdiv]

/-! ### Big-endian transport. -/

theorem prod_pos_of_mem (base : List Nat) (hpos : ∀ b ∈ base, 0 < b) :
    0 < base.prod := by
  induction base with
  | nil => simp
  | cons b bs ih =>
    rw [List.prod_cons]
    exact Nat.mul_pos (hpos b (by simp)) (ih (fun x hx => hpos x (by simp [hx])))

theorem digitsBE_zero (base : List Nat) :
    digitsBE base 0 = List.replicate base.length 0 := by
  simp [digitsBE, digitsLE_zero]

theorem forall₂_digitsBE (base : List Nat) (hpos : ∀ b ∈ base, 0 < b) (k : Nat) :
    List.Forall₂ (· < ·) (digitsBE base k) base := by
  have h := forall₂_digitsLE base.reverse (fun b hb => hpos b (List.mem_reverse.mp hb)) k
  have := List.forall₂_reverse_iff.mpr h
  simpa [digitsBE] using this

theorem valBE_digitsBE (base : List Nat) (hpos : ∀ b ∈ base, 0 < b) (k : Nat)
    (hk : k < base.prod) : valBE base (digitsBE base k) = k := by
  unfold valBE digitsBE
  rw [List.reverse_reverse]
  exact valLE_digitsLE base.reverse (fun b hb => hpos b (List.mem_reverse.mp hb)) k
    (by rwa [List.prod_reverse])

theorem digitsBE_inj (base : List Nat) (hpos : ∀ b ∈ base, 0 < b) {k k' : Nat}
    (hk : k < base.prod) (hk' : k' < base.prod)
    (h : digitsBE base k = digitsBE base k') : k = k' := by
  have := congrArg (valBE base) h
  rwa [valBE_digitsBE base hpos k hk, valBE_digitsBE base hpos k' hk'] at this

theorem digitsBE_valBE (base : List Nat) (hpos : ∀ b ∈ base, 0 < b) (t : List Nat)
    (ht : List.Forall₂ (· < ·) t base) :
    digitsBE base (valBE base t) = t ∧ valBE base t < base.prod := by
  have hrev : List.Forall₂ (· < ·) t.reverse base.reverse :=
    List.forall₂_reverse_iff.mpr ht
  obtain ⟨h1, h2⟩ := digitsLE_valLE base.reverse
    (fun b hb => hpos b (List.mem_reverse.mp hb)) t.reverse hrev
  refine ⟨?_, by rwa [List.prod_reverse] at h2⟩
  unfold digitsBE valBE
  rw [h1, List.reverse_reverse]

theorem increment_digitsBE (base : List Nat) (hpos : ∀ b ∈ base, 0 < b) (k : Nat)
    (hk : k < base.prod) :
    increment base (digitsBE base k) = digitsBE base ((k + 1) % base.prod) := by
  unfold increment digitsBE
  rw [List.reverse_reverse,
    incLE_digitsLE base.reverse (fun b hb => hpos b (List.mem_reverse.mp hb)) k
      (by rwa [List.prod_reverse]), List.prod_reverse]

/-! ### Evaluating the restriction dispatch on the recognized tokens. -/

theorem skipOf_absent (idx : List Nat) : skipOf none idx = some false := rfl

theorem skipOf_noneTok (idx : List Nat) : skipOf (some "none") idx = some false := by
  simp [skipOf]

theorem skipOf_lowertr (idx : List Nat) :
    skipOf (some "lowertr") idx = some (lowerTr idx) := by
  simp [skipOf]

theorem skipOf_diagnol (idx : List Nat) :
    skipOf (some "diagnol") idx = some (diagnol idx) := by
  simp [skipOf]

/-! ### One-step equations for the iteration loop. -/

theorem runAux_stop (base : List Nat) (restr : Option String) (fuel : Nat)
    (idx : List Nat) (it : Nat) (hit : 1 < it)
    (hz : increment base idx = List.replicate base.length 0) :
    runAux base restr (fuel + 1) idx it = ([], Outcome.stopped) := by
  have e : (if 1 < it then increment base idx else idx) = increment base idx :=
    if_pos hit
  simp only [runAux, e]
  rw [if_pos ⟨hit, hz⟩]

theorem runAux_go_exit (base : List Nat) (restr : Option String) (fuel : Nat)
    (idx : List Nat) (it : Nat) (hit : 1 < it)
    (hnz : increment base idx ≠ List.replicate base.length 0)
    (hs : skipOf restr (increment base idx) = none) :
    runAux base restr (fuel + 1) idx it = ([], Outcome.exited) := by
  have e : (if 1 < it then increment base idx else idx) = increment base idx :=
    if_pos hit
  simp only [runAux, e]
  rw [if_neg (fun hc => hnz hc.2)]
  simp only [hs]

theorem runAux_go_skip (base : List Nat) (restr : Option String) (fuel : Nat)
    (idx : List Nat) (it : Nat) (hit : 1 < it)
    (hnz : increment base idx ≠ List.replicate base.length 0)
    (hs : skipOf restr (increment base idx) = some true) :
    runAux base restr (fuel + 1) idx it
      = runAux base restr fuel (increment base idx) (it + 1) := by
  have e : (if 1 < it then increment base idx else idx) = increment base idx :=
    if_pos hit
  simp only [runAux, e]
  rw [if_neg (fun hc => hnz hc.2)]
  simp only [hs]

theorem runAux_go_emit (base : List Nat) (restr : Option String) (fuel : Nat)
    (idx : List Nat) (it : Nat) (hit : 1 < it)
    (hnz : increment base idx ≠ List.replicate base.length 0)
    (hs : skipOf restr (increment base idx) = some false) :
    runAux base restr (fuel + 1) idx it
      = ((increment base idx)
           :: (runAux base restr fuel (increment base idx) (it + 1)).1,
         (runAux base restr fuel (increment base idx) (it + 1)).2) := by
  have e : (if 1 < it then increment base idx else idx) = increment base idx :=
    if_pos hit
  simp only [runAux, e]
  rw [if_neg (fun hc => hnz hc.2)]
  simp only [hs]

theorem runAux_first_exit (base : List Nat) (restr : Option String) (fuel : Nat)
    (idx : List Nat) (it : Nat) (hit : ¬ 1 < it)
    (hs : skipOf restr idx = none) :
    runAux base restr (fuel + 1) idx it = ([], Outcome.exited) := by
  have e : (if 1 < it then increment base idx else idx) = idx := if_neg hit
  simp only [runAux, e]
  rw [if_neg (fun hc => hit hc.1)]
  simp only [hs]

theorem runAux_first_skip (base : List Nat) (restr : Option String) (fuel : Nat)
    (idx : List Nat) (it : Nat) (hit : ¬ 1 < it)
    (hs : skipOf restr idx = some true) :
    runAux base restr (fuel + 1) idx it = runAux base restr fuel idx (it + 1) := by
  have e : (if 1 < it then increment base idx else idx) = idx := if_neg hit
  simp only [runAux, e]
  rw [if_neg (fun hc => hit hc.1)]
  simp only [hs]

theorem runAux_first_emit (base : List Nat) (restr : Option String) (fuel : Nat)
    (idx : List Nat) (it : Nat) (hit : ¬ 1 < it)
    (hs : skipOf restr idx = some false) :
    runAux base restr (fuel + 1) idx it
      = (idx :: (runAux base restr fuel idx (it + 1)).1,
         (runAux base restr fuel idx (it + 1)).2) := by
  have e : (if 1 < it then increment base idx else idx) = idx := if_neg hit
  simp only [runAux, e]
  rw [if_neg (fun hc => hit hc.1)]
  simp only [hs]

/-! ### The unrestricted run enumerates the odometer positions in order. -/

theorem runAux_noskip (base : List Nat) (restr : Option String)
    (hpos : ∀ b ∈ base, 0 < b)
    (hskip : ∀ idx, skipOf restr idx = some false) :
    ∀ j k it, 1 ≤ k → k + j = base.prod → 2 ≤ it →
      runAux base restr (j + 1) (digitsBE base (k - 1)) it
        = ((List.range' k j).map (digitsBE base), Outcome.stopped) := by
  intro j
  induction j with
  | zero =>
    intro k it hk hkj hit
    have hk1 : k - 1 < base.prod := by omega
    have hinc : increment base (digitsBE base (k - 1))
        = List.replicate base.length 0 := by
      rw [increment_digitsBE base hpos (k - 1) hk1, ← digitsBE_zero base]
      congr 1
      have hke : k - 1 + 1 = base.prod := by omega
      rw [hke, Nat.mod_self]
    rw [runAux_stop base restr 0 _ it (by omega) hinc]
    simp [List.range']
  | succ j ih =>
    intro k it hk hkj hit
    have hP : 0 < base.prod := by omega
    have hk1 : k - 1 < base.prod := by omega
    have hklt : k < base.prod := by omega
    have hinc : increment base (digitsBE base (k - 1)) = digitsBE base k := by
      rw [increment_digitsBE base hpos (k - 1) hk1]
      congr 1
      have hke : k - 1 + 1 = k := by omega
      rw [hke, Nat.mod_eq_of_lt hklt]
    have hnz : increment base (digitsBE base (k - 1))
        ≠ List.replicate base.length 0 := by
      rw [hinc, ← digitsBE_zero base]
      intro hcon
      have := digitsBE_inj base hpos hklt hP hcon
      omega
    rw [runAux_go_emit base restr (j + 1) _ it (by omega) hnz
      (by rw [hinc]; exact hskip _), hinc]
    have ihx := ih (k + 1) (it + 1) (by omega) (by omega) (by omega)
    have hke : k + 1 - 1 = k := by omega
    rw [hke] at ihx
    rw [ihx, List.range'_succ]
    simp

theorem run_noskip (base : List Nat) (restr : Option String)
    (hpos : ∀ b ∈ base, 0 < b)
    (hskip : ∀ idx, skipOf restr idx = some false) :
    runAux base restr (base.prod + 1) (List.replicate base.length 0) 1
      = ((List.range base.prod).map (digitsBE base), Outcome.stopped) := by
  have hP : 0 < base.prod := prod_pos_of_mem base hpos
  obtain ⟨m, hm⟩ : ∃ m, base.prod = m + 1 := ⟨base.prod - 1, by omega⟩
  rw [hm, runAux_first_emit base restr (m + 1) _ 1 (by omega) (hskip _)]
  have ihx := runAux_noskip base restr hpos hskip m 1 2
    (by omega) (by omega) (by omega)
  have h0 : digitsBE base (1 - 1) = List.replicate base.length 0 := by
    rw [show (1 : Nat) - 1 = 0 from rfl, digitsBE_zero]
  rw [h0] at ihx
  rw [ihx]
  have hr : List.range (m + 1) = 0 :: List.range' 1 m := by
    rw [List.range_eq_range', List.range'_succ]
  rw [hr]
  simp [digitsBE_zero]

/-! ### A restriction only filters the unrestricted emission sequence. -/

theorem runAux_filter (base : List Nat) (restr : Option String)
    (p : List Nat → Bool) (hp : ∀ idx, skipOf restr idx = some (p idx)) :
    ∀ fuel idx it,
      runAux base restr fuel idx it
        = ((runAux base none fuel idx it).1.filter (fun t => ! p t),
           (runAux base none fuel idx it).2) := by
  intro fuel
  induction fuel with
  | zero => intro idx it; rfl
  | succ fuel ih =>
    intro idx it
    by_cases hit : 1 < it
    · by_cases hz : increment base idx = List.replicate base.length 0
      · rw [runAux_stop base restr fuel idx it hit hz,
          runAux_stop base none fuel idx it hit hz]
        rfl
      · cases hpt : p (increment base idx) with
        | false =>
          rw [runAux_go_emit base restr fuel idx it hit hz (by rw [hp, hpt]),
            runAux_go_emit base none fuel idx it hit hz (skipOf_absent _),
            List.filter_cons_of_pos (by rw [hpt]; rfl), ih]
        | true =>
          rw [runAux_go_skip base restr fuel idx it hit hz (by rw [hp, hpt]),
            runAux_go_emit base none fuel idx it hit hz (skipOf_absent _),
            List.filter_cons_of_neg (by rw [hpt]; exact Bool.not_true ▸ (by simp)),
            ih]
    · cases hpt : p idx with
      | false =>
        rw [runAux_first_emit base restr fuel idx it hit (by rw [hp, hpt]),
          runAux_first_emit base none fuel idx it hit (skipOf_absent _),
          List.filter_cons_of_pos (by rw [hpt]; rfl), ih]
      | true =>
        rw [runAux_first_skip base restr fuel idx it hit (by rw [hp, hpt]),
          runAux_first_emit base none fuel idx it hit (skipOf_absent _),
          List.filter_cons_of_neg (by rw [hpt]; simp), ih]

/-! ### More fuel never changes a completed run. -/

theorem runAux_mono (base : List Nat) (restr : Option String) :
    ∀ fuel f' idx it, (runAux base restr fuel idx it).2 ≠ Outcome.fuelOut →
      fuel ≤ f' → runAux base restr f' idx it = runAux base restr fuel idx it := by
  intro fuel
  induction fuel with
  | zero => intro f' idx it hout _; exact absurd rfl hout
  | succ fuel ih =>
    intro f' idx it hout hle
    obtain ⟨f'', rfl⟩ : ∃ f'', f' = f'' + 1 := ⟨f' - 1, by omega⟩
    have hle' : fuel ≤ f'' := by omega
    by_cases hit : 1 < it
    · by_cases hz : increment base idx = List.replicate base.length 0
      · rw [runAux_stop base restr f'' idx it hit hz,
          runAux_stop base restr fuel idx it hit hz]
      · cases hs : skipOf restr (increment base idx) with
        | none =>
          rw [runAux_go_exit base restr f'' idx it hit hz hs,
            runAux_go_exit base restr fuel idx it hit hz hs]
        | some b =>
          cases b with
          | true =>
            have hout' : (runAux base restr fuel (increment base idx) (it + 1)).2
                ≠ Outcome.fuelOut := by
              rwa [runAux_go_skip base restr fuel idx it hit hz hs] at hout
            rw [runAux_go_skip base restr f'' idx it hit hz hs,
              runAux_go_skip base restr fuel idx it hit hz hs]
            exact ih f'' _ _ hout' hle'
          | false =>
            rw [runAux_go_emit base restr f'' idx it hit hz hs,
              runAux_go_emit base restr fuel idx it hit hz hs]
            have hout' : (runAux base restr fuel (increment base idx) (it + 1)).2
                ≠ Outcome.fuelOut := by
              rw [runAux_go_emit base restr fuel idx it hit hz hs] at hout
              exact hout
            rw [ih f'' _ _ hout' hle']
    · cases hs : skipOf restr idx with
      | none =>
        rw [runAux_first_exit base restr f'' idx it hit hs,
          runAux_first_exit base restr fuel idx it hit hs]
      | some b =>
        cases b with
        | true =>
          have hout' : (runAux base restr fuel idx (it + 1)).2 ≠ Outcome.fuelOut := by
            rwa [runAux_first_skip base restr fuel idx it hit hs] at hout
          rw [runAux_first_skip base restr f'' idx it hit hs,
            runAux_first_skip base restr fuel idx it hit hs]
          exact ih f'' _ _ hout' hle'
        | false =>
          have hout' : (runAux base restr fuel idx (it + 1)).2 ≠ Outcome.fuelOut := by
            rw [runAux_first_emit base restr fuel idx it hit hs] at hout
            exact hout
          rw [runAux_first_emit base restr f'' idx it hit hs,
            runAux_first_emit base restr fuel idx it hit hs, ih f'' _ _ hout' hle']

/-! ### What the two restriction scans compute. -/

theorem lowerTr_iff (t : List Nat) :
    lowerTr t = true ↔ List.Chain' (fun a b => b ≤ a) t := by
  induction t with
  | nil => simp [lowerTr]
  | cons a t ih =>
    cases t with
    | nil => simp [lowerTr]
    | cons b rest =>
      rw [List.chain'_cons, ← ih]
      by_cases hab : a < b
      · have hba : ¬ b ≤ a := by omega
        simp [lowerTr, hab, hba]
      · have hba : b ≤ a := by omega
        simp [lowerTr, hab, hba]

theorem diagnol_iff (t : List Nat) :
    diagnol t = false ↔ List.Chain' (fun a b => a = b) t := by
  induction t with
  | nil => simp [diagnol]
  | cons a t ih =>
    cases t with
    | nil => simp [diagnol]
    | cons b rest =>
      rw [List.chain'_cons, ← ih]
      by_cases hab : a = b
      · simp [diagnol, hab]
      · simp [diagnol, hab]

/-- Every stored restriction value either yields a total skip predicate or
sends every filtering step into the `sys.exit()` branch. -/
theorem skipOf_total_or (restr : Option String) :
    (∃ p : List Nat → Bool, ∀ idx, skipOf restr idx = some (p idx))
      ∨ (∀ idx, skipOf restr idx = none) := by
  cases restr with
  | none => exact Or.inl ⟨fun _ => false, fun _ => rfl⟩
  | some s =>
    by_cases h1 : s = "lowertr"
    · subst h1; exact Or.inl ⟨lowerTr, skipOf_lowertr⟩
    · by_cases h2 : s = "diagnol"
      · subst h2; exact Or.inl ⟨diagnol, skipOf_diagnol⟩
      · by_cases h3 : s = "none"
        · subst h3; exact Or.inl ⟨fun _ => false, skipOf_noneTok⟩
        · refine Or.inr fun idx => ?_
          simp only [skipOf]
          rw [if_neg h1, if_neg h2, if_neg h3]

/-! ### Remaining helper lemmas for the claims. -/

theorem forall₂_replicate_zero (base : List Nat) (hpos : ∀ b ∈ base, 0 < b) :
    List.Forall₂ (· < ·) (List.replicate base.length 0) base := by
  induction base with
  | nil => exact List.Forall₂.nil
  | cons b bs ih =>
    simp only [List.length_cons, List.replicate_succ]
    exact List.Forall₂.cons (hpos b (by simp))
      (ih (fun x hx => hpos x (by simp [hx])))

theorem incLE_forall₂ (bs is : List Nat) (h : List.Forall₂ (· < ·) is bs) :
    List.Forall₂ (· < ·) (incLE bs is) bs := by
  induction h with
  | nil => exact List.Forall₂.nil
  | @cons i b is' bs' hib hrest ih =>
    by_cases he : i + 1 = b
    · rw [show incLE (b :: bs') (i :: is') = 0 :: incLE bs' is' from by
        simp [incLE, he]]
      exact List.Forall₂.cons (by omega) ih
    · rw [show incLE (b :: bs') (i :: is') = (i + 1) :: is' from by
        simp [incLE, he]]
      exact List.Forall₂.cons (by omega) hrest

theorem increment_forall₂ (base idx : List Nat)
    (h : List.Forall₂ (· < ·) idx base) :
    List.Forall₂ (· < ·) (increment base idx) base := by
  unfold increment
  have h1 : List.Forall₂ (· < ·) idx.reverse base.reverse :=
    List.forall₂_reverse_iff.mpr h
  have h2 := incLE_forall₂ base.reverse idx.reverse h1
  have h3 := List.forall₂_reverse_iff.mpr h2
  rwa [List.reverse_reverse] at h3

/-! ### The `int16` model coincides with the unbounded model below the
overflow threshold: on index vectors that are in bounds for extents of at
most `32768`, every comparison and every increment agrees. -/

theorem lowerTr16_map (is : List Nat) :
    lowerTr16 (is.map (fun n : Nat => (n : Int))) = lowerTr is := by
  induction is with
  | nil => rfl
  | cons a t ih =>
    cases t with
    | nil => rfl
    | cons b rest =>
      simp only [List.map_cons] at ih ⊢
      simp only [lowerTr16, lowerTr]
      by_cases hab : a < b
      · have h16 : (a : Int) < (b : Int) := by exact_mod_cast hab
        rw [if_pos h16, if_pos hab]
      · have h16 : ¬ (a : Int) < (b : Int) := by exact_mod_cast hab
        rw [if_neg h16, if_neg hab]
        exact ih

theorem diagnol16_map (is : List Nat) :
    diagnol16 (is.map (fun n : Nat => (n : Int))) = diagnol is := by
  induction is with
  | nil => rfl
  | cons a t ih =>
    cases t with
    | nil => rfl
    | cons b rest =>
      simp only [List.map_cons] at ih ⊢
      simp only [diagnol16, diagnol]
      by_cases hab : a = b
      · have h16 : (a : Int) = (b : Int) := by exact_mod_cast hab
        rw [if_neg (by simp [h16]), if_neg (by simp [hab])]
        exact ih
      · have h16 : ¬ (a : Int) = (b : Int) := by exact_mod_cast hab
        rw [if_pos (by simp [h16]), if_pos (by simp [hab])]

theorem skipOf16_map (restr : Option String) (is : List Nat) :
    skipOf16 restr (is.map (fun n : Nat => (n : Int))) = skipOf restr is := by
  cases restr with
  | none => rfl
  | some s =>
    simp only [skipOf16, skipOf]
    split_ifs with h1 h2 h3
    · rw [lowerTr16_map]
    · rw [diagnol16_map]
    · rfl
    · rfl

theorem map_cast_eq_replicate_iff (l : List Nat) (n : Nat) :
    l.map (fun m : Nat => (m : Int)) = List.replicate n (0 : Int) ↔
      l = List.replicate n 0 := by
  constructor
  · intro h
    have h2 : l.map (fun m : Nat => (m : Int))
        = (List.replicate n (0 : Nat)).map (fun m : Nat => (m : Int)) := by
      rw [h]
      simp [List.map_replicate]
    exact List.map_injective_iff.mpr Nat.cast_injective h2
  · intro h
    rw [h]
    simp [List.map_replicate]

theorem incLE16_map : ∀ (bs is : List Nat),
    List.Forall₂ (· < ·) is bs → (∀ b ∈ bs, b ≤ 32768) →
      incLE16 bs (is.map (fun n : Nat => (n : Int)))
        = (incLE bs is).map (fun n : Nat => (n : Int)) := by
  intro bs is h
  induction h with
  | nil => intro _; rfl
  | @cons i b is' bs' hib hrest ih =>
    intro hsm
    have hb : b ≤ 32768 := hsm b (by simp)
    by_cases he : i + 1 = b
    · have he16 : (i : Int) = (b : Int) - 1 := by omega
      simp only [List.map_cons, incLE16, if_pos he16, incLE]
      rw [if_pos he, List.map_cons, Nat.cast_zero,
        ih (fun x hx => hsm x (by simp [hx]))]
    · have he16 : ¬ (i : Int) = (b : Int) - 1 := by omega
      have hi1 : i + 1 ≤ 32767 := by omega
      have hw : wrap16 ((i : Int) + 1) = ((i + 1 : Nat) : Int) := by
        unfold wrap16
        push_cast
        omega
      simp only [List.map_cons, incLE16, if_neg he16, hw, incLE]
      rw [if_neg he]
      simp only [List.map_cons]

theorem increment16_map (base idx : List Nat)
    (h : List.Forall₂ (· < ·) idx base) (hsm : ∀ b ∈ base, b ≤ 32768) :
    increment16 base (idx.map (fun n : Nat => (n : Int)))
      = (increment base idx).map (fun n : Nat => (n : Int)) := by
  unfold increment16 increment
  rw [← List.map_reverse, incLE16_map base.reverse idx.reverse
    (List.forall₂_reverse_iff.mpr h)
    (fun b hb => hsm b (List.mem_reverse.mp hb)), List.map_reverse]

/-! ### One-step equations for the `int16` iteration loop. -/

theorem runAux16_stop (base : List Nat) (restr : Option String) (fuel : Nat)
    (idx : List Int) (it : Nat) (hit : 1 < it)
    (hz : increment16 base idx = List.replicate base.length (0 : Int)) :
    runAux16 base restr (fuel + 1) idx it = ([], Outcome.stopped) := by
  have e : (if 1 < it then increment16 base idx else idx) = increment16 base idx :=
    if_pos hit
  simp only [runAux16, e]
  rw [if_pos ⟨hit, hz⟩]

theorem runAux16_go_exit (base : List Nat) (restr : Option String) (fuel : Nat)
    (idx : List Int) (it : Nat) (hit : 1 < it)
    (hnz : increment16 base idx ≠ List.replicate base.length (0 : Int))
    (hs : skipOf16 restr (increment16 base idx) = none) :
    runAux16 base restr (fuel + 1) idx it = ([], Outcome.exited) := by
  have e : (if 1 < it then increment16 base idx else idx) = increment16 base idx :=
    if_pos hit
  simp only [runAux16, e]
  rw [if_neg (fun hc => hnz hc.2)]
  simp only [hs]

theorem runAux16_go_skip (base : List Nat) (restr : Option String) (fuel : Nat)
    (idx : List Int) (it : Nat) (hit : 1 < it)
    (hnz : increment16 base idx ≠ List.replicate base.length (0 : Int))
    (hs : skipOf16 restr (increment16 base idx) = some true) :
    runAux16 base restr (fuel + 1) idx it
      = runAux16 base restr fuel (increment16 base idx) (it + 1) := by
  have e : (if 1 < it then increment16 base idx else idx) = increment16 base idx :=
    if_pos hit
  simp only [runAux16, e]
  rw [if_neg (fun hc => hnz hc.2)]
  simp only [hs]

theorem runAux16_go_emit (base : List Nat) (restr : Option String) (fuel : Nat)
    (idx : List Int) (it : Nat) (hit : 1 < it)
    (hnz : increment16 base idx ≠ List.replicate base.length (0 : Int))
    (hs : skipOf16 restr (increment16 base idx) = some false) :
    runAux16 base restr (fuel + 1) idx it
      = ((increment16 base idx)
           :: (runAux16 base restr fuel (increment16 base idx) (it + 1)).1,
         (runAux16 base restr fuel (increment16 base idx) (it + 1)).2) := by
  have e : (if 1 < it then increment16 base idx else idx) = increment16 base idx :=
    if_pos hit
  simp only [runAux16, e]
  rw [if_neg (fun hc => hnz hc.2)]
  simp only [hs]

theorem runAux16_first_exit (base : List Nat) (restr : Option String)
    (fuel : Nat) (idx : List Int) (it : Nat) (hit : ¬ 1 < it)
    (hs : skipOf16 restr idx = none) :
    runAux16 base restr (fuel + 1) idx it = ([], Outcome.exited) := by
  have e : (if 1 < it then increment16 base idx else idx) = idx := if_neg hit
  simp only [runAux16, e]
  rw [if_neg (fun hc => hit hc.1)]
  simp only [hs]

theorem runAux16_first_skip (base : List Nat) (restr : Option String)
    (fuel : Nat) (idx : List Int) (it : Nat) (hit : ¬ 1 < it)
    (hs : skipOf16 restr idx = some true) :
    runAux16 base restr (fuel + 1) idx it
      = runAux16 base restr fuel idx (it + 1) := by
  have e : (if 1 < it then increment16 base idx else idx) = idx := if_neg hit
  simp only [runAux16, e]
  rw [if_neg (fun hc => hit hc.1)]
  simp only [hs]

theorem runAux16_first_emit (base : List Nat) (restr : Option String)
    (fuel : Nat) (idx : List Int) (it : Nat) (hit : ¬ 1 < it)
    (hs : skipOf16 restr idx = some false) :
    runAux16 base restr (fuel + 1) idx it
      = (idx :: (runAux16 base restr fuel idx (it + 1)).1,
         (runAux16 base restr fuel idx (it + 1)).2) := by
  have e : (if 1 < it then increment16 base idx else idx) = idx := if_neg hit
  simp only [runAux16, e]
  rw [if_neg (fun hc => hit hc.1)]
  simp only [hs]

/-! ### Below the `int16` overflow threshold the faithful run coincides with
the unbounded run. -/

theorem runAux16_eq_runAux (base : List Nat) (restr : Option String)
    (hsm : ∀ b ∈ base, b ≤ 32768) :
    ∀ (fuel : Nat) (idx : List Nat) (it : Nat),
      List.Forall₂ (· < ·) idx base →
      runAux16 base restr fuel (idx.map (fun n : Nat => (n : Int))) it
        = ((runAux base restr fuel idx it).1.map
            (List.map (fun n : Nat => (n : Int))),
           (runAux base restr fuel idx it).2) := by
  intro fuel
  induction fuel with
  | zero => intro idx it _; rfl
  | succ fuel ih =>
    intro idx it hb
    by_cases hit : 1 < it
    · by_cases hz : increment base idx = List.replicate base.length 0
      · have hz16 : increment16 base (idx.map (fun n : Nat => (n : Int)))
            = List.replicate base.length (0 : Int) := by
          rw [increment16_map base idx hb hsm, hz]
          simp [List.map_replicate]
        rw [runAux16_stop base restr fuel _ it hit hz16,
          runAux_stop base restr fuel idx it hit hz]
        rfl
      · have hinc := increment16_map base idx hb hsm
        have hz16 : increment16 base (idx.map (fun n : Nat => (n : Int)))
            ≠ List.replicate base.length (0 : Int) := by
          rw [hinc]
          intro hcon
          exact hz ((map_cast_eq_replicate_iff _ _).mp hcon)
        have hb' : List.Forall₂ (· < ·) (increment base idx) base :=
          increment_forall₂ base idx hb
        have hsk : skipOf16 restr (increment16 base
              (idx.map (fun n : Nat => (n : Int))))
            = skipOf restr (increment base idx) := by
          rw [hinc, skipOf16_map]
        cases hs : skipOf restr (increment base idx) with
        | none =>
          rw [runAux16_go_exit base restr fuel _ it hit hz16 (hsk.trans hs),
            runAux_go_exit base restr fuel idx it hit hz hs]
          rfl
        | some bv =>
          cases bv with
          | true =>
            rw [runAux16_go_skip base restr fuel _ it hit hz16 (hsk.trans hs),
              runAux_go_skip base restr fuel idx it hit hz hs, hinc]
            exact ih (increment base idx) (it + 1) hb'
          | false =>
            rw [runAux16_go_emit base restr fuel _ it hit hz16 (hsk.trans hs),
              runAux_go_emit base restr fuel idx it hit hz hs, hinc,
              ih (increment base idx) (it + 1) hb']
            simp [List.map_cons]
    · have hsk : skipOf16 restr (idx.map (fun n : Nat => (n : Int)))
          = skipOf restr idx := skipOf16_map restr idx
      cases hs : skipOf restr idx with
      | none =>
        rw [runAux16_first_exit base restr fuel _ it hit (hsk.trans hs),
          runAux_first_exit base restr fuel idx it hit hs]
        rfl
      | some bv =>
        cases bv with
        | true =>
          rw [runAux16_first_skip base restr fuel _ it hit (hsk.trans hs),
            runAux_first_skip base restr fuel idx it hit hs]
          exact ih idx (it + 1) hb
        | false =>
          rw [runAux16_first_emit base restr fuel _ it hit (hsk.trans hs),
            runAux_first_emit base restr fuel idx it hit hs,
            ih idx (it + 1) hb]
          simp [List.map_cons]

theorem run16_eq_run (base : List Nat) (restr : Option String) (fuel : Nat)
    (hpos : ∀ b ∈ base, 0 < b) (hsm : ∀ b ∈ base, b ≤ 32768) :
    run16 base restr fuel
      = ((run base restr fuel).1.map (List.map (fun n : Nat => (n : Int))),
         (run base restr fuel).2) := by
  have hrepl : List.replicate base.length (0 : Int)
      = (List.replicate base.length (0 : Nat)).map (fun n : Nat => (n : Int)) := by
    simp [List.map_replicate]
  show runAux16 base (normRestr restr) fuel
      (List.replicate base.length (0 : Int)) 1 = _
  rw [hrepl]
  exact runAux16_eq_runAux base (normRestr restr) hsm fuel _ 1
    (forall₂_replicate_zero base hpos)

/-- An integer index vector is componentwise within the extents' bounds
exactly when it is the cast of a bounded natural index vector. -/
theorem int_bounds_iff (base : List Nat) (t : List Int) :
    List.Forall₂ (fun (z : Int) (b : Nat) => 0 ≤ z ∧ z < (b : Int)) t base
      ↔ ∃ u : List Nat, List.Forall₂ (· < ·) u base
          ∧ t = u.map (fun n : Nat => (n : Int)) := by
  constructor
  · intro h
    induction h with
    | nil => exact ⟨[], List.Forall₂.nil, rfl⟩
    | @cons z b t' bs' hzb hrest ih =>
      obtain ⟨u, hu, rfl⟩ := ih
      refine ⟨z.toNat :: u, List.Forall₂.cons (by omega) hu, ?_⟩
      simp [Int.toNat_of_nonneg hzb.1]
  · rintro ⟨u, hu, rfl⟩
    induction hu with
    | nil => exact List.Forall₂.nil
    | @cons a b u' bs' hab hrest ih =>
      simp only [List.map_cons]
      exact List.Forall₂.cons ⟨by omega, by exact_mod_cast hab⟩ ih

/-! ### Above the threshold the `int16` odometer wraps: with extents
`[40000]` the single digit counts through all 65536 `int16` values
(`0, …, 32767, -32768, …, -1`) before returning to zero, because the wrapped
value never equals `40000 - 1`. -/

theorem increment16_forty (k : Nat) (hk : 1 ≤ k) :
    increment16 [40000] [wrap16 ((k - 1 : Nat) : Int)]
      = [wrap16 ((k : Nat) : Int)] := by
  have hb : wrap16 ((k - 1 : Nat) : Int) ≠ (39999 : Int) := by
    unfold wrap16
    omega
  have hs : wrap16 (wrap16 ((k - 1 : Nat) : Int) + 1) = wrap16 ((k : Nat) : Int) := by
    have hc : ((k - 1 : Nat) : Int) = (k : Int) - 1 := by omega
    unfold wrap16
    rw [hc]
    omega
  unfold increment16
  simp [incLE16, hb, hs]

theorem runAux16_forty :
    ∀ j k it, 1 ≤ k → k + j = 65536 → 2 ≤ it →
      runAux16 [40000] none (j + 1) [wrap16 ((k - 1 : Nat) : Int)] it
        = ((List.range' k j).map (fun m : Nat => [wrap16 ((m : Nat) : Int)]),
           Outcome.stopped) := by
  intro j
  induction j with
  | zero =>
    intro k it hk hkj hit
    have hk6 : k = 65536 := by omega
    have hz : wrap16 ((k : Nat) : Int) = 0 := by
      unfold wrap16
      omega
    have hstop : increment16 [40000] [wrap16 ((k - 1 : Nat) : Int)]
        = List.replicate ([40000] : List Nat).length (0 : Int) := by
      rw [increment16_forty k hk, hz]
      rfl
    rw [runAux16_stop [40000] none 0 _ it (by omega) hstop]
    simp [List.range']
  | succ j ihj =>
    intro k it hk hkj hit
    have hklt : k ≤ 65535 := by omega
    have hnz : increment16 [40000] [wrap16 ((k - 1 : Nat) : Int)]
        ≠ List.replicate ([40000] : List Nat).length (0 : Int) := by
      rw [increment16_forty k hk]
      intro hcon
      have h1 : wrap16 ((k : Nat) : Int) = 0 := by
        have := congrArg (fun l => l.headI) hcon
        simpa using this
      unfold wrap16 at h1
      omega
    rw [runAux16_go_emit [40000] none (j + 1) _ it (by omega) hnz
        (by rw [increment16_forty k hk]; rfl),
      increment16_forty k hk]
    have ihx := ihj (k + 1) (it + 1) (by omega) (by omega) (by omega)
    have hke : k + 1 - 1 = k := by omega
    rw [hke] at ihx
    rw [ihx, List.range'_succ]
    simp

theorem run16_forty :
    run16 [40000] none 65537
      = ((List.range 65536).map (fun m : Nat => [wrap16 ((m : Nat) : Int)]),
         Outcome.stopped) := by
  have h1 : run16 [40000] none 65537
      = runAux16 [40000] none 65537 [(0 : Int)] 1 := rfl
  rw [h1, show (65537 : Nat) = 65536 + 1 from rfl,
    runAux16_first_emit [40000] none 65536 _ 1 (by omega) rfl]
  have h0 : wrap16 ((1 - 1 : Nat) : Int) = 0 := by decide
  have h2 := runAux16_forty 65535 1 2 (by omega) (by omega) (by omega)
  rw [h0] at h2
  have h2x : runAux16 [40000] none 65536 [(0 : Int)] 2
      = (List.map (fun m : Nat => [wrap16 ((m : Nat) : Int)])
          (List.range' 1 65535), Outcome.stopped) := h2
  rw [h2x]
  have hr : List.range 65536 = 0 :: List.range' 1 65535 := by
    rw [List.range_eq_range', show (65536 : Nat) = 65535 + 1 from rfl,
      List.range'_succ]
  rw [hr]
  simp only [List.map_cons]
  rw [show wrap16 ((0 : Nat) : Int) = 0 from by decide]

/-! ### The claims. -/

/-- With no restriction (stored restriction `None` or `'none'`), positive
extents make the unbounded-index run emit exactly the odometer enumeration
`digitsBE` of `0, 1, 2, ...`: `prod extents` tuples, pairwise distinct,
covering the whole Cartesian product, starting with the all-zero tuple, and
iteration then stops. -/
theorem run_none_facts (base : List Nat) (hpos : ∀ b ∈ base, 0 < b)
    (restr : Option String)
    (hr : normRestr restr = none ∨ normRestr restr = some "none") :
    (run base restr (base.prod + 1)).1
        = (List.range base.prod).map (digitsBE base)
    ∧ (run base restr (base.prod + 1)).2 = Outcome.stopped
    ∧ (run base restr (base.prod + 1)).1.length = base.prod
    ∧ (run base restr (base.prod + 1)).1.Nodup
    ∧ (∀ t, t ∈ (run base restr (base.prod + 1)).1
        ↔ List.Forall₂ (· < ·) t base)
    ∧ (run base restr (base.prod + 1)).1.head?
        = some (List.replicate base.length 0) := by
  have hskip : ∀ idx, skipOf (normRestr restr) idx = some false := by
    rcases hr with h | h
    · rw [h]; exact skipOf_absent
    · rw [h]; exact skipOf_noneTok
  have hrun : run base restr (base.prod + 1)
      = ((List.range base.prod).map (digitsBE base), Outcome.stopped) := by
    show runAux base (normRestr restr) (base.prod + 1)
      (List.replicate base.length 0) 1 = _
    exact run_noskip base (normRestr restr) hpos hskip
  refine ⟨by rw [hrun], by rw [hrun], by rw [hrun]; simp, ?_, ?_, ?_⟩
  · rw [hrun]
    exact List.Nodup.map_on
      (fun x hx y hy hxy => digitsBE_inj base hpos
        (List.mem_range.mp hx) (List.mem_range.mp hy) hxy)
      (List.nodup_range _)
  · intro t
    rw [hrun]
    simp only [List.mem_map, List.mem_range]
    constructor
    · rintro ⟨k, _, rfl⟩
      exact forall₂_digitsBE base hpos k
    · intro ht
      obtain ⟨h1, h2⟩ := digitsBE_valBE base hpos t ht
      exact ⟨valBE base t, h2, h1⟩
  · rw [hrun]
    have hP : 0 < base.prod := prod_pos_of_mem base hpos
    obtain ⟨m, hm⟩ : ∃ m, base.prod = m + 1 := ⟨base.prod - 1, by omega⟩
    rw [hm, List.range_eq_range', List.range'_succ]
    simp [digitsBE_zero]

/-- Claim C2: under the `lowertr` restriction a candidate tuple is skipped
exactly when every adjacent pair of components is non-increasing
(`lowerTr` is the skip flag, characterized by the `Chain'` predicate), and
the emitted tuples are exactly the unrestricted emission sequence filtered
down to the tuples violating that shape. -/
theorem claim_c2 :
    (∀ t : List Nat, lowerTr t = true ↔ List.Chain' (fun a b => b ≤ a) t)
    ∧ ∀ (base : List Nat) (fuel : Nat) (idx : List Nat) (it : Nat),
        runAux base (some "lowertr") fuel idx it
          = ((runAux base none fuel idx it).1.filter (fun t => ! lowerTr t),
             (runAux base none fuel idx it).2) :=
  ⟨lowerTr_iff, fun base fuel idx it =>
    runAux_filter base (some "lowertr") lowerTr skipOf_lowertr fuel idx it⟩

/-- Claim C3 counterexample: construction does *not* fail — `__init__`
validates nothing.  Extents `[0, 5]`, an empty extents vector, and the
unknown restriction token `"bogus"` all produce ordinary initialized
enumerator states. -/
theorem claim_c3_cex :
    mkGetIndex [0, 5] none
        = { base := [0, 5], restr := none, loopIndex := [0, 0], iteration := 1 }
    ∧ mkGetIndex [] none
        = { base := [], restr := none, loopIndex := [], iteration := 1 }
    ∧ mkGetIndex [3] (some "bogus")
        = { base := [3], restr := some "bogus", loopIndex := [0],
            iteration := 1 } := by
  decide

/-- Claim C3 amended: construction performs no validation and always
succeeds, for non-positive extents, empty extents and unknown restriction
tokens alike; an unknown restriction token is detected only when the first
advance reaches the filtering step, which terminates the process instead of
raising an error. -/
theorem claim_c3_amended :
    mkGetIndex [0, 5] none
        = { base := [0, 5], restr := none, loopIndex := [0, 0], iteration := 1 }
    ∧ mkGetIndex [] none
        = { base := [], restr := none, loopIndex := [], iteration := 1 }
    ∧ mkGetIndex [3] (some "bogus")
        = { base := [3], restr := some "bogus", loopIndex := [0],
            iteration := 1 }
    ∧ run [3] (some "bogus") 4 = ([], Outcome.exited) := by
  decide

/-- Claim C4 counterexample: under the `lowertr` restriction the all-zero
tuple is *never* emitted (it satisfies the non-increasing shape and is
skipped), refuting "for every restriction mode the all-zero tuple is emitted
exactly once": for extents `[2, 2]` the full run emits `[0, 0]` zero
times. -/
theorem claim_c4_cex :
    (run [2, 2] (some "lowertr") 5).1.count [0, 0] = 0
    ∧ run [2, 2] (some "lowertr") 5 = ([[0, 1]], Outcome.stopped) := by
  decide

/-- Claim C4 amended: the all-zero tuple is always the *candidate* at the
very start; it is emitted at most once, any emission of it is the very first
one, and it is emitted *exactly when* the stored restriction does not skip
it — so always under no restriction and under `diagnol`, and never under
`lowertr`, where it satisfies the non-increasing shape.  A later recurrence
of all-zero only stops iteration and is never emitted. -/
theorem claim_c4_amended (base : List Nat) (restr : Option String)
    (hpos : ∀ b ∈ base, 0 < b) :
    (run base restr (base.prod + 1)).1.count (List.replicate base.length 0) ≤ 1
    ∧ (List.replicate base.length 0 ∈ (run base restr (base.prod + 1)).1 →
        (run base restr (base.prod + 1)).1.head?
          = some (List.replicate base.length 0))
    ∧ (skipOf (normRestr restr) (List.replicate base.length 0) = some false →
        (run base restr (base.prod + 1)).1.head?
          = some (List.replicate base.length 0))
    ∧ (List.replicate base.length 0 ∈ (run base restr (base.prod + 1)).1 ↔
        skipOf (normRestr restr) (List.replicate base.length 0)
          = some false) := by
  have hP : 0 < base.prod := prod_pos_of_mem base hpos
  rcases skipOf_total_or (normRestr restr) with ⟨p, hp⟩ | hnone
  · have hrun : run base restr (base.prod + 1)
        = (((List.range base.prod).map (digitsBE base)).filter
            (fun t => ! p t), Outcome.stopped) := by
      show runAux base (normRestr restr) (base.prod + 1)
        (List.replicate base.length 0) 1 = _
      rw [runAux_filter base (normRestr restr) p hp,
        run_noskip base none hpos skipOf_absent]
    obtain ⟨m, hm⟩ : ∃ m, base.prod = m + 1 := ⟨base.prod - 1, by omega⟩
    have hsplit : (List.range base.prod).map (digitsBE base)
        = List.replicate base.length 0
            :: (List.range' 1 m).map (digitsBE base) := by
      rw [hm, List.range_eq_range', List.range'_succ]
      simp [digitsBE_zero]
    have hnotin : List.replicate base.length 0
        ∉ (List.range' 1 m).map (digitsBE base) := by
      intro hmem
      obtain ⟨k, hk, hkz⟩ := List.mem_map.mp hmem
      have hk1 : 1 ≤ k ∧ k < 1 + m := List.mem_range'_1.mp hk
      have : k = 0 := by
        refine digitsBE_inj base hpos (by omega) hP ?_
        rw [hkz, digitsBE_zero]
      omega
    refine ⟨?_, ?_, ?_, ?_⟩
    · rw [hrun, hsplit]
      have hT : List.count (List.replicate base.length 0)
          ((List.range' 1 m).map (digitsBE base)) = 0 :=
        List.count_eq_zero_of_not_mem hnotin
      exact le_trans ((List.filter_sublist _).count_le _)
        (by simp [List.count_cons_self, hT])
    · intro hmem
      rw [hrun] at hmem ⊢
      rw [hsplit] at hmem ⊢
      cases hpz : p (List.replicate base.length 0) with
      | false =>
        rw [List.filter_cons_of_pos (by rw [hpz]; rfl)]
        rfl
      | true =>
        exfalso
        rw [List.filter_cons_of_neg (by rw [hpz]; simp)] at hmem
        exact hnotin ((List.filter_sublist _).mem hmem)
    · intro hsz
      have hpz : p (List.replicate base.length 0) = false := by
        have := hp (List.replicate base.length 0)
        rw [hsz] at this
        exact (Option.some.injEq _ _ ▸ this.symm)
      rw [hrun, hsplit, List.filter_cons_of_pos (by rw [hpz]; rfl)]
      rfl
    · constructor
      · intro hmem
        rw [hrun, hsplit] at hmem
        cases hpz : p (List.replicate base.length 0) with
        | false => rw [hp, hpz]
        | true =>
          exfalso
          rw [List.filter_cons_of_neg (by rw [hpz]; simp)] at hmem
          exact hnotin ((List.filter_sublist _).mem hmem)
      · intro hsz
        have hpz : p (List.replicate base.length 0) = false := by
          have := hp (List.replicate base.length 0)
          rw [hsz] at this
          exact (Option.some.injEq _ _ ▸ this.symm)
        rw [hrun, hsplit, List.filter_cons_of_pos (by rw [hpz]; rfl)]
        exact List.mem_cons_self _ _
  · have hrun : run base restr (base.prod + 1) = ([], Outcome.exited) := by
      show runAux base (normRestr restr) (base.prod + 1)
        (List.replicate base.length 0) 1 = _
      exact runAux_first_exit base (normRestr restr) base.prod _ 1 (by omega)
        (hnone _)
    refine ⟨by rw [hrun]; simp, ?_, ?_, ?_⟩
    · intro hmem
      rw [hrun] at hmem
      cases hmem
    · intro hsz
      rw [hnone _] at hsz
      cases hsz
    · constructor
      · intro hmem
        rw [hrun] at hmem
        cases hmem
      · intro hsz
        rw [hnone _] at hsz
        cases hsz

/-- Claim C4 amended witness: for `[3, 4]` under `lowertr` the all-zero
tuple is emitted at most once — here zero times, since `lowertr` skips it. -/
theorem claim_c4_witness :
    (∀ b ∈ [3, 4], 0 < b)
    ∧ (run [3, 4] (some "lowertr") 13).1.count [0, 0] ≤ 1
    ∧ [0, 0] ∉ (run [3, 4] (some "lowertr") 13).1 := by
  have h := claim_c4_amended [3, 4] (some "lowertr") (by decide)
  refine ⟨by decide, h.1, fun hmem => ?_⟩
  exact absurd (h.2.2.2.mp hmem) (by decide)

/-- Claim C5: under the `diagnol` restriction a tuple is emitted exactly
when all of its components are equal (`diagnol` is the skip flag,
characterized by the `Chain'` equality predicate); the emitted tuples are
the unrestricted sequence filtered to the all-equal ones; for extents
`[3, 3]` the emission is exactly `[0,0], [1,1], [2,2]` in increasing order,
and for the unequal extents `[3, 4]` the same triple is emitted with normal
termination (no error). -/
theorem claim_c5 :
    (∀ t : List Nat, diagnol t = false ↔ List.Chain' (fun a b => a = b) t)
    ∧ (∀ (base : List Nat) (fuel : Nat) (idx : List Nat) (it : Nat),
        runAux base (some "diagnol") fuel idx it
          = ((runAux base none fuel idx it).1.filter (fun t => ! diagnol t),
             (runAux base none fuel idx it).2))
    ∧ run [3, 3] (some "diagnol") 10 = ([[0, 0], [1, 1], [2, 2]], Outcome.stopped)
    ∧ run [3, 4] (some "diagnol") 13
        = ([[0, 0], [1, 1], [2, 2]], Outcome.stopped) :=
  ⟨diagnol_iff,
   fun base fuel idx it =>
     runAux_filter base (some "diagnol") diagnol skipOf_diagnol fuel idx it,
   by decide, by decide⟩

/-- With positive extents and a recognized stored restriction, the
unbounded-index run terminates: `prod extents + 1` activations of `next`
always suffice to reach `StopIteration`, the emitted sequence has at most
`prod extents` tuples, and giving the loop any more fuel changes nothing. -/
theorem run_valid_facts (base : List Nat) (restr : Option String)
    (hpos : ∀ b ∈ base, 0 < b)
    (hr : normRestr restr = none ∨ normRestr restr = some "none"
        ∨ normRestr restr = some "lowertr"
        ∨ normRestr restr = some "diagnol") :
    (run base restr (base.prod + 1)).2 = Outcome.stopped
    ∧ (run base restr (base.prod + 1)).1.length ≤ base.prod
    ∧ ∀ fuel, base.prod + 1 ≤ fuel →
        run base restr fuel = run base restr (base.prod + 1) := by
  obtain ⟨p, hp⟩ : ∃ p : List Nat → Bool,
      ∀ idx, skipOf (normRestr restr) idx = some (p idx) := by
    rcases hr with h | h | h | h <;> rw [h]
    · exact ⟨fun _ => false, skipOf_absent⟩
    · exact ⟨fun _ => false, skipOf_noneTok⟩
    · exact ⟨lowerTr, skipOf_lowertr⟩
    · exact ⟨diagnol, skipOf_diagnol⟩
  have hrun : run base restr (base.prod + 1)
      = (((List.range base.prod).map (digitsBE base)).filter
          (fun t => ! p t), Outcome.stopped) := by
    show runAux base (normRestr restr) (base.prod + 1)
      (List.replicate base.length 0) 1 = _
    rw [runAux_filter base (normRestr restr) p hp,
      run_noskip base none hpos skipOf_absent]
  refine ⟨by rw [hrun], ?_, ?_⟩
  · rw [hrun]
    calc (((List.range base.prod).map (digitsBE base)).filter
          (fun t => ! p t)).length
        ≤ ((List.range base.prod).map (digitsBE base)).length :=
          List.length_filter_le _ _
      _ = base.prod := by simp
  · intro fuel hfuel
    have hout : (runAux base (normRestr restr) (base.prod + 1)
        (List.replicate base.length 0) 1).2 ≠ Outcome.fuelOut := by
      have h2 : (run base restr (base.prod + 1)).2 = Outcome.stopped := by
        rw [hrun]
      rw [show (runAux base (normRestr restr) (base.prod + 1)
          (List.replicate base.length 0) 1).2
        = (run base restr (base.prod + 1)).2 from rfl, h2]
      simp
    show runAux base (normRestr restr) fuel
        (List.replicate base.length 0) 1
      = runAux base (normRestr restr) (base.prod + 1)
          (List.replicate base.length 0) 1
    exact runAux_mono base (normRestr restr) (base.prod + 1) fuel _ 1
      hout hfuel

/-- Claim C7: `__iter__` on any enumerator state (any current index vector,
any counter value, hence any amount of progress or exhaustion) returns the
freshly constructed enumerator for the same extents and stored restriction,
so re-iterating reproduces the identical sequence from the start; the
original state is a value and is not mutated. -/
theorem claim_c7 (base : List Nat) (r : Option String) (idx : List Nat)
    (it fuel : Nat) :
    iter { base := base, restr := normRestr r, loopIndex := idx,
           iteration := it }
        = mkGetIndex base r
    ∧ runState fuel
        (iter { base := base, restr := normRestr r, loopIndex := idx,
                iteration := it })
      = runState fuel (mkGetIndex base r) := by
  have h : iter { base := base, restr := normRestr r, loopIndex := idx,
                  iteration := it } = mkGetIndex base r := by
    unfold iter mkGetIndex
    simp [normRestr_idem]
  exact ⟨h, by rw [h]⟩

/-- Claim C9 counterexample: an enumerator whose stored restriction is the
empty string does *not* advance without error — the empty string is not
`None` and not `'none'`, so the very first filtering step falls into the
unknown-restriction branch and the process exits. -/
theorem claim_c9_cex :
    skipOf (some "") [0] = none
    ∧ run [2] (some "") 3 = ([], Outcome.exited) := by
  decide

/-- Claim C9 amended: the unknown-restriction exit is taken at the
filtering step exactly when the stored restriction is none of
`'lowertr'`, `'diagnol'`, `None`, `'none'`; the absent restriction (`None`)
raises no error and skips nothing, but the empty string *does* trigger the
exit. -/
theorem claim_c9_amended :
    (∀ (restr : Option String) (idx : List Nat),
        skipOf restr idx = none ↔
          restr ≠ none ∧ restr ≠ some "none"
            ∧ restr ≠ some "lowertr" ∧ restr ≠ some "diagnol")
    ∧ (∀ idx : List Nat, skipOf none idx = some false)
    ∧ (∀ idx : List Nat, skipOf (some "") idx = none) := by
  refine ⟨?_, skipOf_absent, ?_⟩
  · intro restr idx
    cases restr with
    | none => simp [skipOf]
    | some s =>
      simp only [skipOf]
      split_ifs with h1 h2 h3
      · subst h1; simp
      · subst h2; simp
      · subst h3; simp
      · simp [h1, h2, h3]
  · intro idx
    simp only [skipOf]
    rw [if_neg (by decide), if_neg (by decide), if_neg (by decide)]

/-- Claim C10: a one-dimensional extents vector under the `lowertr`
restriction emits nothing at all: the adjacent-pair scan is vacuous on
single-component tuples, so every candidate (the initial all-zero tuple
included) is skipped and the enumerator exhausts without output. -/
theorem claim_c10 (n : Nat) (hn : 1 ≤ n) :
    run [n] (some "lowertr") (n + 1) = ([], Outcome.stopped) := by
  have hpos : ∀ b ∈ [n], 0 < b := by
    intro b hb
    simp only [List.mem_singleton] at hb
    omega
  have hu : run [n] (some "lowertr") (n + 1)
      = runAux [n] (some "lowertr") (n + 1)
          (List.replicate [n].length 0) 1 := rfl
  have hprod : [n].prod = n := by simp
  rw [hu, show n + 1 = [n].prod + 1 from by rw [hprod],
    runAux_filter [n] (some "lowertr") lowerTr skipOf_lowertr,
    run_noskip [n] none hpos skipOf_absent]
  have hnil : ((List.range [n].prod).map (digitsBE [n])).filter
      (fun t => ! lowerTr t) = [] := by
    rw [List.filter_eq_nil_iff]
    intro t ht
    obtain ⟨k, _, rfl⟩ := List.mem_map.mp ht
    have he : digitsBE [n] k = [k % n] := by
      simp [digitsBE, digitsLE]
    rw [he]
    simp [lowerTr]
  rw [hnil]

/-- Claim C10 witness: extents `[3]` with `lowertr` emit nothing. -/
theorem claim_c10_witness :
    1 ≤ 3 ∧ run [3] (some "lowertr") 4 = ([], Outcome.stopped) :=
  ⟨by decide, claim_c10 3 (by decide)⟩

/-- Claim C1 counterexample: the claim quantifies over *all* positive
extents, but the `int16` index wraps: with extents `[40000]` the program
emits 65536 tuples — not `prod = 40000` — including the negative tuple
`[-32768]`, before the wrapped digit returns to zero and iteration stops. -/
theorem claim_c1_cex :
    (run16 [40000] none 65537).1.length = 65536
    ∧ (run16 [40000] none 65537).1.length ≠ ([40000] : List Nat).prod
    ∧ [(-32768 : Int)] ∈ (run16 [40000] none 65537).1
    ∧ (run16 [40000] none 65537).2 = Outcome.stopped := by
  have h := run16_forty
  have h1 : (run16 [40000] none 65537).1
      = (List.range 65536).map (fun m : Nat => [wrap16 ((m : Nat) : Int)]) := by
    rw [h]
  have hl : (run16 [40000] none 65537).1.length = 65536 := by
    rw [h1]
    simp
  have hp : ([40000] : List Nat).prod = 40000 := by simp
  refine ⟨hl, ?_, ?_, by rw [h]⟩
  · rw [hl, hp]
    omega
  · rw [h1]
    exact List.mem_map.mpr ⟨32768, List.mem_range.mpr (by omega), by decide⟩

/-- Claim C1 (amended): with no restriction, a non-empty vector of positive
extents *each at most 32768* (so `extent - 1` fits `int16` and the index
never overflows) makes the enumerator emit exactly `prod extents` tuples,
pairwise distinct, covering the whole Cartesian product of
`[0, extent_i)`, in odometer order (`digitsBE` of `0, 1, 2, ...`), starting
with the all-zero tuple; the wrap-around return to all-zero stops iteration
and is not re-emitted. -/
theorem claim_c1 (base : List Nat) (hpos : ∀ b ∈ base, 0 < b)
    (_hne : base ≠ []) (restr : Option String)
    (hr : normRestr restr = none ∨ normRestr restr = some "none")
    (hsm : ∀ b ∈ base, b ≤ 32768) :
    (run16 base restr (base.prod + 1)).1
        = (List.range base.prod).map
            (fun k => (digitsBE base k).map (fun n : Nat => (n : Int)))
    ∧ (run16 base restr (base.prod + 1)).2 = Outcome.stopped
    ∧ (run16 base restr (base.prod + 1)).1.length = base.prod
    ∧ (run16 base restr (base.prod + 1)).1.Nodup
    ∧ (∀ t : List Int, t ∈ (run16 base restr (base.prod + 1)).1
        ↔ List.Forall₂ (fun (z : Int) (b : Nat) => 0 ≤ z ∧ z < (b : Int)) t base)
    ∧ (run16 base restr (base.prod + 1)).1.head?
        = some (List.replicate base.length (0 : Int)) := by
  obtain ⟨e1, e2, e3, e4, e5, e6⟩ := run_none_facts base hpos restr hr
  have hE := run16_eq_run base restr (base.prod + 1) hpos hsm
  have hE1 : (run16 base restr (base.prod + 1)).1
      = (run base restr (base.prod + 1)).1.map
          (List.map (fun n : Nat => (n : Int))) := by
    rw [hE]
  have hE2 : (run16 base restr (base.prod + 1)).2
      = (run base restr (base.prod + 1)).2 := by
    rw [hE]
  refine ⟨?_, ?_, ?_, ?_, ?_, ?_⟩
  · rw [hE1, e1, List.map_map]
    rfl
  · rw [hE2, e2]
  · rw [hE1, List.length_map, e3]
  · rw [hE1]
    exact e4.map (List.map_injective_iff.mpr Nat.cast_injective)
  · intro t
    rw [hE1]
    constructor
    · intro hmem
      obtain ⟨u, hu, rfl⟩ := List.mem_map.mp hmem
      exact (int_bounds_iff base _).mpr ⟨u, (e5 u).mp hu, rfl⟩
    · intro ht
      obtain ⟨u, hu, rfl⟩ := (int_bounds_iff base t).mp ht
      exact List.mem_map.mpr ⟨u, (e5 u).mpr hu, rfl⟩
  · rw [hE1, List.head?_map, e6]
    simp [List.map_replicate]

/-- Claim C1 witness: for extents `[3, 4]` (all below the `int16`
threshold) without restriction, exactly 12 tuples are emitted, the first
being `[0, 0]`. -/
theorem claim_c1_witness :
    (∀ b ∈ [3, 4], 0 < b) ∧ ([3, 4] ≠ ([] : List Nat))
    ∧ (normRestr none = none ∨ normRestr none = some "none")
    ∧ (∀ b ∈ [3, 4], b ≤ 32768)
    ∧ (run16 [3, 4] none 13).1.length = 12
    ∧ (run16 [3, 4] none 13).1.head? = some [(0 : Int), 0] := by
  have h := claim_c1 [3, 4] (by decide) (by decide) none (Or.inl rfl)
    (by decide)
  exact ⟨by decide, by decide, Or.inl rfl, by decide, h.2.2.1, h.2.2.2.2.2⟩

/-- Claim C6 counterexample: with extents `[40000]` the `int16` odometer
needs 65536 advances to wrap back to zero and emits 65536 tuples — more
than `prod = 40000` — so the "at most prod(extents) advances/tuples" bound
fails above the `int16` threshold. -/
theorem claim_c6_cex :
    (run16 [40000] none 65537).1.length = 65536
    ∧ ([40000] : List Nat).prod < (run16 [40000] none 65537).1.length := by
  have h := run16_forty
  have hl : (run16 [40000] none 65537).1.length = 65536 := by
    rw [h]
    simp
  have hp : ([40000] : List Nat).prod = 40000 := by simp
  refine ⟨hl, ?_⟩
  rw [hl, hp]
  omega

/-- Claim C6 (amended): with positive extents *each at most 32768* and a
recognized stored restriction, iteration terminates: `prod extents + 1`
activations of `next` (at most `prod extents` odometer advances) always
reach `StopIteration` — the exhaustion check runs before restriction
filtering, so skips cannot mask it — the emitted sequence has at most
`prod extents` tuples, and more fuel changes nothing. -/
theorem claim_c6 (base : List Nat) (restr : Option String)
    (hpos : ∀ b ∈ base, 0 < b)
    (hr : normRestr restr = none ∨ normRestr restr = some "none"
        ∨ normRestr restr = some "lowertr"
        ∨ normRestr restr = some "diagnol")
    (hsm : ∀ b ∈ base, b ≤ 32768) :
    (run16 base restr (base.prod + 1)).2 = Outcome.stopped
    ∧ (run16 base restr (base.prod + 1)).1.length ≤ base.prod
    ∧ ∀ fuel, base.prod + 1 ≤ fuel →
        run16 base restr fuel = run16 base restr (base.prod + 1) := by
  obtain ⟨v1, v2, v3⟩ := run_valid_facts base restr hpos hr
  have hE1 : (run16 base restr (base.prod + 1)).1
      = (run base restr (base.prod + 1)).1.map
          (List.map (fun n : Nat => (n : Int))) := by
    rw [run16_eq_run base restr (base.prod + 1) hpos hsm]
  have hE2 : (run16 base restr (base.prod + 1)).2
      = (run base restr (base.prod + 1)).2 := by
    rw [run16_eq_run base restr (base.prod + 1) hpos hsm]
  refine ⟨?_, ?_, ?_⟩
  · rw [hE2, v1]
  · rw [hE1, List.length_map]
    exact v2
  · intro fuel hf
    rw [run16_eq_run base restr fuel hpos hsm,
      run16_eq_run base restr (base.prod + 1) hpos hsm, v3 fuel hf]

/-- Claim C6 witness: extents `[2, 3]` with the case-insensitive token
`"LowerTr"` terminate with at most 6 emitted tuples. -/
theorem claim_c6_witness :
    (∀ b ∈ [2, 3], 0 < b)
    ∧ (normRestr (some "LowerTr") = none
        ∨ normRestr (some "LowerTr") = some "none"
        ∨ normRestr (some "LowerTr") = some "lowertr"
        ∨ normRestr (some "LowerTr") = some "diagnol")
    ∧ (∀ b ∈ [2, 3], b ≤ 32768)
    ∧ (run16 [2, 3] (some "LowerTr") 7).2 = Outcome.stopped
    ∧ (run16 [2, 3] (some "LowerTr") 7).1.length ≤ 6 := by
  have h := claim_c6 [2, 3] (some "LowerTr") (by decide) (by decide)
    (by decide)
  exact ⟨by decide, by decide, by decide, h.1, h.2.1⟩

/-- Claim C8 counterexample: the `int16` index leaves the claimed bounds at
a large extent: from the in-bounds index `[32767]` of the extents vector
`[40000]`, one odometer advance wraps to `[-32768]`, and that tuple is
actually reached (and emitted) in the run. -/
theorem claim_c8_cex :
    increment16 [40000] [(32767 : Int)] = [(-32768 : Int)]
    ∧ (0 ≤ (32767 : Int) ∧ (32767 : Int) < ((40000 : Nat) : Int))
    ∧ ¬ 0 ≤ (-32768 : Int)
    ∧ [(-32768 : Int)] ∈ (run16 [40000] none 65537).1 := by
  have h1 : (run16 [40000] none 65537).1
      = (List.range 65536).map (fun m : Nat => [wrap16 ((m : Nat) : Int)]) := by
    rw [run16_forty]
  refine ⟨by decide, by decide, by decide, ?_⟩
  rw [h1]
  exact List.mem_map.mpr ⟨32768, List.mem_range.mpr (by omega), by decide⟩

/-- Claim C8 (amended): with positive extents *each at most 32768* the
`int16` index vector is within bounds in every dimension: initially (all
zeros), and the odometer advance preserves `0 ≤ index[i] < extent[i]` —
hence the invariant holds after every advance, including the advances a
restriction skip performs. -/
theorem claim_c8 (base : List Nat) (hpos : ∀ b ∈ base, 0 < b)
    (hsm : ∀ b ∈ base, b ≤ 32768) :
    (∀ restr, List.Forall₂ (fun (z : Int) (b : Nat) => 0 ≤ z ∧ z < (b : Int))
        (mkGetIndex16 base restr).loopIndex base)
    ∧ ∀ idx : List Int,
        List.Forall₂ (fun (z : Int) (b : Nat) => 0 ≤ z ∧ z < (b : Int)) idx base →
        List.Forall₂ (fun (z : Int) (b : Nat) => 0 ≤ z ∧ z < (b : Int))
          (increment16 base idx) base := by
  constructor
  · intro restr
    refine (int_bounds_iff base _).mpr ⟨List.replicate base.length 0,
      forall₂_replicate_zero base hpos, ?_⟩
    show List.replicate base.length (0 : Int) = _
    simp [List.map_replicate]
  · intro idx hidx
    obtain ⟨u, hu, rfl⟩ := (int_bounds_iff base idx).mp hidx
    rw [increment16_map base u hu hsm]
    exact (int_bounds_iff base _).mpr ⟨increment base u,
      increment_forall₂ base u hu, rfl⟩

/-- Claim C8 witness: the `int16` advance from `[2, 3]` stays within
`[3, 4]`. -/
theorem claim_c8_witness :
    (∀ b ∈ [3, 4], 0 < b) ∧ (∀ b ∈ [3, 4], b ≤ 32768)
    ∧ List.Forall₂ (fun (z : Int) (b : Nat) => 0 ≤ z ∧ z < (b : Int))
        (increment16 [3, 4] [(2 : Int), 3]) [3, 4] := by
  refine ⟨by decide, by decide,
    (claim_c8 [3, 4] (by decide) (by decide)).2 [(2 : Int), 3] ?_⟩
  refine List.Forall₂.cons (by norm_num) (List.Forall₂.cons (by norm_num) ?_)
  exact List.Forall₂.nil

end GetIndexPy2
